import Mathlib

/-!
Shallow embedding of `chronox.py` (class `DateExtractor`): the date-pattern
matchers, sentence segmentation, the extraction pipeline, and the thin I/O
wrappers (`extract_dates_from_docx`, `save_to_spreadsheet`).

Strings are modelled as `List Char`.  The character classes of the Python
`re` module (`\s`, `\d`, `\w`) and of `str.strip` / `str.lower` are modelled
over their ASCII behaviour, which covers all characters occurring in the
patterns and in the repository's documents.

The five regular expressions of `DateExtractor.date_patterns` are embedded
as hand-written scanners.  Each regex is a sequence of tokens whose greedy
quantifiers never need backtracking on these patterns: every quantified
token (`\d{1,2}`, `\s+`, the optional month-name suffixes) is followed by a
token whose first character is disjoint from the quantified class (a digit
run is always followed by a separator, a comma or whitespace; a month-name
suffix consists of letters while the month is always followed by `\s+`),
and the twelve month abbreviations are pairwise distinct, so at most one
alternation branch can apply at a given position.  Hence committed
left-to-right scanning computes exactly the Python `re.findall` result.
-/

namespace Chronox

/-- Python `re` whitespace class `\s` / `str.strip` default, over ASCII. -/
def isSpace (c : Char) : Bool :=
  c = ' ' || c = '\t' || c = '\n' || c = '\r' || c = '\x0b' || c = '\x0c'

/-- Python `re` digit class `\d`, over ASCII. -/
def isDigit (c : Char) : Bool := '0' ≤ c && c ≤ '9'

def isAlpha (c : Char) : Bool := ('a' ≤ c && c ≤ 'z') || ('A' ≤ c && c ≤ 'Z')

/-- Python `re` word class `\w` (for `\b` word boundaries), over ASCII. -/
def isWordChar (c : Char) : Bool := isAlpha c || isDigit c || c = '_'

/-- The date separators (`-` or `/`) of patterns 1 and 2. -/
def isSep (c : Char) : Bool := c = '-' || c = '/'

/-- Sentence-terminal punctuation `[.!?]` of the sentence splitter. -/
def isTerm (c : Char) : Bool := c = '.' || c = '!' || c = '?'

/-- Python `str.strip` (both ends), over ASCII whitespace. -/
def strip (s : List Char) : List Char :=
  ((s.dropWhile isSpace).reverse.dropWhile isSpace).reverse

def headIsSpace : List Char → Bool
  | [] => false
  | c :: _ => isSpace c

/-- `re.split(r'(?<=[.!?])\s+', text)`: a separator is a maximal whitespace
run immediately preceded by `.`, `!` or `?`; the terminator stays attached
to the preceding sentence.  `acc` holds the reversed current sentence;
`skip` is true while consuming the whitespace run of a separator. -/
def splitGo : Bool → List Char → List Char → List (List Char)
  | _, [], acc => [acc.reverse]
  | skip, c :: rest, acc =>
    if skip && isSpace c then splitGo true rest acc
    else if isTerm c && headIsSpace rest then
      (acc.reverse ++ [c]) :: splitGo true rest []
    else splitGo false rest (c :: acc)

def splitSentences (text : List Char) : List (List Char) := splitGo false text []

/-- Concatenate sentences re-inserting a single space between consecutive
ones (the delimiter shape the splitter consumed). -/
def joinWithSpace : List (List Char) → List Char
  | [] => []
  | [s] => s
  | s :: rest => s ++ ' ' :: joinWithSpace rest

/-- Whitespace normalization performed by the splitter: every whitespace
run that immediately follows `.`, `!` or `?` is collapsed to one space;
all other characters are kept verbatim.  Same recursion structure as
`splitGo`. -/
def collapseGo : Bool → List Char → List Char
  | _, [] => []
  | skip, c :: rest =>
    if skip && isSpace c then collapseGo true rest
    else if isTerm c && headIsSpace rest then c :: ' ' :: collapseGo true rest
    else c :: collapseGo false rest

def collapseTermWs (text : List Char) : List Char := collapseGo false text

/-- Whether the text contains a sentence-terminal character immediately
followed by whitespace (a split point of the sentence splitter). -/
def hasSplitPoint : List Char → Bool
  | [] => false
  | c :: rest => (isTerm c && headIsSpace rest) || hasSplitPoint rest

/-- Tokens: a token consumes a prefix of the input, returning it with the
remainder. -/
def takeDigits1or2 : List Char → Option (List Char × List Char)
  | [] => none
  | [c] => if isDigit c then some ([c], []) else none
  | c1 :: c2 :: rest =>
    if isDigit c1 then
      if isDigit c2 then some ([c1, c2], rest) else some ([c1], c2 :: rest)
    else none

def takeDigits4 : List Char → Option (List Char × List Char)
  | c1 :: c2 :: c3 :: c4 :: rest =>
    if isDigit c1 && isDigit c2 && isDigit c3 && isDigit c4 then
      some ([c1, c2, c3, c4], rest)
    else none
  | _ => none

def takeSep : List Char → Option (List Char × List Char)
  | c :: rest => if isSep c then some ([c], rest) else none
  | [] => none

/-- `\s+`, greedy. -/
def takeWs (s : List Char) : Option (List Char × List Char) :=
  match s with
  | c :: rest =>
    if isSpace c then some (c :: (rest.takeWhile isSpace), rest.dropWhile isSpace)
    else none
  | [] => none

def takeLit (lit : List Char) (s : List Char) : Option (List Char × List Char) :=
  if lit.isPrefixOf s then some (lit, s.drop lit.length) else none

/-- The month alternation `(?:Jan(?:uary)?|…|Dec(?:ember)?)`: each branch is
a full name or its three-letter abbreviation, full name attempted first. -/
def monthAlts : List (List Char × List Char) :=
  [("January".data, "Jan".data), ("February".data, "Feb".data),
   ("March".data, "Mar".data), ("April".data, "Apr".data),
   ("May".data, "May".data), ("June".data, "Jun".data),
   ("July".data, "Jul".data), ("August".data, "Aug".data),
   ("September".data, "Sep".data), ("October".data, "Oct".data),
   ("November".data, "Nov".data), ("December".data, "Dec".data)]

def tryAlts : List (List Char × List Char) → List Char → Option (List Char × List Char)
  | [], _ => none
  | (full, ab) :: rest, s =>
    match takeLit full s with
    | some r => some r
    | none =>
      match takeLit ab s with
      | some r => some r
      | none => tryAlts rest s

def takeMonth (s : List Char) : Option (List Char × List Char) := tryAlts monthAlts s

/-- All 24 month literals (full names and abbreviations). -/
def monthLits : List (List Char) :=
  (monthAlts.map fun pr => pr.1) ++ (monthAlts.map fun pr => pr.2)

/-- `\b` at the start of a pattern whose first character is a word
character: the previous character (if any) must not be a word character. -/
def boundaryOk : Option Char → Bool
  | none => true
  | some c => !isWordChar c

/-- `\b` at the end of a pattern whose last character is a word character:
the next character (if any) must not be a word character. -/
def tailBoundaryOk : List Char → Bool
  | [] => true
  | c :: _ => !isWordChar c

/-- Pattern 1: word-bounded `\d{1,2}`, separator, `\d{1,2}`, separator,
`\d{4}` (the capture group equals the whole match). -/
def matchAtP1 (prev : Option Char) (s : List Char) : Option (List Char × List Char) :=
  if boundaryOk prev then do
    let (a, s1) ← takeDigits1or2 s
    let (p, s2) ← takeSep s1
    let (b, s3) ← takeDigits1or2 s2
    let (q, s4) ← takeSep s3
    let (c, s5) ← takeDigits4 s4
    if tailBoundaryOk s5 then pure (a ++ (p ++ (b ++ (q ++ c))), s5) else none
  else none

/-- Pattern 2: word-bounded `\d{4}`, separator, `\d{1,2}`, separator,
`\d{1,2}` (the capture group equals the whole match). -/
def matchAtP2 (prev : Option Char) (s : List Char) : Option (List Char × List Char) :=
  if boundaryOk prev then do
    let (a, s1) ← takeDigits4 s
    let (p, s2) ← takeSep s1
    let (b, s3) ← takeDigits1or2 s2
    let (q, s4) ← takeSep s3
    let (c, s5) ← takeDigits1or2 s4
    if tailBoundaryOk s5 then pure (a ++ (p ++ (b ++ (q ++ c))), s5) else none
  else none

/-- Pattern 3: `\b(?:Month)\s+\d{1,2},\s+\d{4}\b`. -/
def matchAtP3 (prev : Option Char) (s : List Char) : Option (List Char × List Char) :=
  if boundaryOk prev then do
    let (m, s1) ← takeMonth s
    let (w1, s2) ← takeWs s1
    let (d, s3) ← takeDigits1or2 s2
    let (k, s4) ← takeLit [','] s3
    let (w2, s5) ← takeWs s4
    let (y, s6) ← takeDigits4 s5
    if tailBoundaryOk s6 then pure (m ++ (w1 ++ (d ++ (k ++ (w2 ++ y)))), s6) else none
  else none

/-- Pattern 4: `\b\d{1,2}\s+(?:Month)\s+\d{4}\b`. -/
def matchAtP4 (prev : Option Char) (s : List Char) : Option (List Char × List Char) :=
  if boundaryOk prev then do
    let (d, s1) ← takeDigits1or2 s
    let (w1, s2) ← takeWs s1
    let (m, s3) ← takeMonth s2
    let (w2, s4) ← takeWs s3
    let (y, s5) ← takeDigits4 s4
    if tailBoundaryOk s5 then pure (d ++ (w1 ++ (m ++ (w2 ++ y))), s5) else none
  else none

/-- Pattern 5: `\b(?:Month)\s+\d{4}\b`. -/
def matchAtP5 (prev : Option Char) (s : List Char) : Option (List Char × List Char) :=
  if boundaryOk prev then do
    let (m, s1) ← takeMonth s
    let (w, s2) ← takeWs s1
    let (y, s3) ← takeDigits4 s2
    if tailBoundaryOk s3 then pure (m ++ (w ++ y), s3) else none
  else none

/-- `re.findall` scanning loop: try a match at each position, left to right;
on success record the match and continue at its end, otherwise advance one
character.  `prev` is the character before the current position (for `\b`).
The fuel starts at the input length, which suffices because every match of
the five patterns is non-empty. -/
def findAllFuel (mA : Option Char → List Char → Option (List Char × List Char)) :
    Nat → Option Char → List Char → List (List Char)
  | 0, _, _ => []
  | _ + 1, _, [] => []
  | fuel + 1, prev, c :: rest =>
    match mA prev (c :: rest) with
    | some (m, r) => m :: findAllFuel mA fuel m.getLast? r
    | none => findAllFuel mA fuel (some c) rest

def findAll (mA : Option Char → List Char → Option (List Char × List Char))
    (s : List Char) : List (List Char) :=
  findAllFuel mA s.length none s

/-- One row of the output: `{'Date Found': …, 'Event Description': …}`. -/
structure ExtractionRecord where
  dateFound : List Char
  eventDescription : List Char
deriving DecidableEq, Repr

/-- `DateExtractor.date_patterns`, in source order. -/
def date_patterns : List (Option Char → List Char → Option (List Char × List Char)) :=
  [matchAtP1, matchAtP2, matchAtP3, matchAtP4, matchAtP5]

/-- The inner loop of `extract_dates_from_docx`: for one sentence, scan with
every pattern in order and build a record per match. -/
def processSentence (sentence : List Char) : List ExtractionRecord :=
  (date_patterns.map (fun pat =>
    (findAll pat sentence).map (fun m =>
      ExtractionRecord.mk (strip m) (strip sentence)))).flatten

/-- One paragraph: strip, skip if empty, split into sentences, scan each. -/
def processParagraph (para : List Char) : List ExtractionRecord :=
  let text := strip para
  if text.isEmpty then []
  else ((splitSentences text).map processSentence).flatten

/-- The pure extraction core of `extract_dates_from_docx`, over the
paragraph texts of the document. -/
def extract (paragraphs : List (List Char)) : List ExtractionRecord :=
  (paragraphs.map processParagraph).flatten

/-! The I/O boundary of `extract_dates_from_docx` and
`save_to_spreadsheet`.  File existence, document parsing and write success
are external effects, modelled as explicit inputs; a Python exception
raised by the document reader is an `Except.error`. -/

structure DataFrame where
  columns : List String
  rows : List ExtractionRecord
deriving DecidableEq, Repr

def expected_columns : List String := ["Date Found", "Event Description"]

/-- Python `str.lower`, over ASCII. -/
def lowerChar (c : Char) : Char :=
  if 'A' ≤ c && c ≤ 'Z' then Char.ofNat (c.toNat + 32) else c

/-- `path.lower().endswith(suffix)` for a lowercase literal `suffix`. -/
def lowerEndsWith (path : List Char) (suffix : List Char) : Bool :=
  suffix.isSuffixOf (path.map lowerChar)

/-- The environment seen by `extract_dates_from_docx`: whether
`os.path.exists(docx_path)` holds, and the paragraph texts yielded by
`Document(docx_path)` (or the exception it raised). -/
structure DocxEnv where
  pathExists : Bool
  readResult : Except String (List (List Char))

def extract_dates_from_docx (docx_path : List Char) (env : DocxEnv) : DataFrame :=
  if !env.pathExists then ⟨expected_columns, []⟩
  else if !lowerEndsWith docx_path (".docx".data) then ⟨expected_columns, []⟩
  else
    match env.readResult with
    | Except.error _ => ⟨expected_columns, []⟩
    | Except.ok paragraphs =>
      let data := extract paragraphs
      if data.isEmpty then ⟨expected_columns, []⟩
      else ⟨expected_columns, data⟩

/-- The observable outcome of `save_to_spreadsheet`: which file (if any) was
written, or that the failure was only logged. -/
inductive SaveOutcome where
  | wroteCsv (df : DataFrame)
  | wroteXlsx (df : DataFrame)
  | unsupportedReported
  | writeErrorReported
deriving DecidableEq, Repr

/-- `save_to_spreadsheet(df, output_path)`; `writeOk` models whether the
underlying `to_csv` / `to_excel` call succeeds. -/
def save_to_spreadsheet (df : DataFrame) (output_path : List Char) (writeOk : Bool) :
    SaveOutcome :=
  if lowerEndsWith output_path (".csv".data) then
    if writeOk then SaveOutcome.wroteCsv df else SaveOutcome.writeErrorReported
  else if lowerEndsWith output_path (".xlsx".data) then
    if writeOk then SaveOutcome.wroteXlsx df else SaveOutcome.writeErrorReported
  else SaveOutcome.unsupportedReported

/-- The grammar of pattern 1's body: 1-2 digits, a separator, 1-2 digits,
a separator, 4 digits; the two separators are independent (`-` or `/`
each), so mixed separators are part of the grammar. -/
def P1Target (a : List Char) (p : Char) (b : List Char) (q : Char) (c : List Char) : Prop :=
  a.all isDigit = true ∧ (a.length = 1 ∨ a.length = 2) ∧ isSep p = true ∧
  b.all isDigit = true ∧ (b.length = 1 ∨ b.length = 2) ∧ isSep q = true ∧
  c.all isDigit = true ∧ c.length = 4

/-- Soundness facts shared by all five pattern matchers: a match is a
non-empty prefix of the scanned suffix whose first and last characters are
not whitespace. -/
def MatcherSound (mA : Option Char → List Char → Option (List Char × List Char)) : Prop :=
  ∀ prev s m r, mA prev s = some (m, r) →
    s = m ++ r ∧ m ≠ [] ∧
    (∀ c, m.head? = some c → isSpace c = false) ∧
    (∀ c, m.getLast? = some c → isSpace c = false)

/-! ## General lemmas about the pipeline -/

theorem processParagraph_eq (p : List Char) :
    processParagraph p = ((splitSentences (strip p)).map processSentence).flatten := by
  unfold processParagraph
  by_cases h : (strip p).isEmpty
  · have hnil : strip p = [] := by simpa [List.isEmpty_iff] using h
    simp [h, hnil, splitSentences, splitGo, processSentence, findAll, findAllFuel,
      date_patterns]
  · simp [h]

theorem processSentence_eq_map (s : List Char) :
    processSentence s =
      ((date_patterns.map (fun pat => findAll pat s)).flatten).map
        (fun m => ExtractionRecord.mk (strip m) (strip s)) := by
  unfold processSentence
  rw [List.map_flatten, List.map_map]
  rfl

theorem extract_singleton (p : List Char) :
    extract [p] = processParagraph p := by
  simp [extract]

/-! ## Character-class lemmas -/

theorem not_space_of_digit {c : Char} (h : isDigit c = true) : isSpace c = false := by
  by_contra hs
  rw [Bool.not_eq_false] at hs
  simp only [isSpace, Bool.or_eq_true, decide_eq_true_eq] at hs
  rcases hs with ((((rfl | rfl) | rfl) | rfl) | rfl) | rfl <;> simp [isDigit] at h

theorem not_space_of_alpha {c : Char} (h : isAlpha c = true) : isSpace c = false := by
  by_contra hs
  rw [Bool.not_eq_false] at hs
  simp only [isSpace, Bool.or_eq_true, decide_eq_true_eq] at hs
  rcases hs with ((((rfl | rfl) | rfl) | rfl) | rfl) | rfl <;> simp [isAlpha] at h

theorem not_digit_of_sep {c : Char} (h : isSep c = true) : isDigit c = false := by
  simp only [isSep, Bool.or_eq_true, decide_eq_true_eq] at h
  rcases h with rfl | rfl <;> rfl

theorem word_of_digit {c : Char} (h : isDigit c = true) : isWordChar c = true := by
  simp [isWordChar, h]

theorem not_word_of_sep {c : Char} (h : isSep c = true) : isWordChar c = false := by
  simp only [isSep, Bool.or_eq_true, decide_eq_true_eq] at h
  rcases h with rfl | rfl <;> rfl

/-! ## Token soundness -/

theorem takeDigits1or2_spec {s m r : List Char} (h : takeDigits1or2 s = some (m, r)) :
    s = m ++ r ∧ m.all isDigit = true ∧ (m.length = 1 ∨ m.length = 2) := by
  match s with
  | [] => simp [takeDigits1or2] at h
  | [c] =>
    rw [takeDigits1or2] at h
    split at h
    · cases h; simp_all
    · cases h
  | c1 :: c2 :: rest =>
    rw [takeDigits1or2] at h
    split at h
    · split at h
      · cases h; simp_all
      · cases h; simp_all
    · cases h

theorem takeDigits4_spec {s m r : List Char} (h : takeDigits4 s = some (m, r)) :
    s = m ++ r ∧ m.all isDigit = true ∧ m.length = 4 := by
  match s with
  | c1 :: c2 :: c3 :: c4 :: rest =>
    rw [takeDigits4] at h
    split at h
    · cases h; simp_all
    · cases h
  | [] => simp [takeDigits4] at h
  | [_] => simp [takeDigits4] at h
  | [_, _] => simp [takeDigits4] at h
  | [_, _, _] => simp [takeDigits4] at h

theorem takeSep_spec {s m r : List Char} (h : takeSep s = some (m, r)) :
    s = m ++ r ∧ ∃ c, m = [c] ∧ isSep c = true := by
  match s with
  | [] => simp [takeSep] at h
  | c :: rest =>
    rw [takeSep] at h
    split at h
    · cases h; exact ⟨rfl, c, rfl, by assumption⟩
    · cases h

theorem takeWs_spec {s m r : List Char} (h : takeWs s = some (m, r)) :
    s = m ++ r ∧ m ≠ [] ∧ m.all isSpace = true := by
  match s with
  | [] => simp [takeWs] at h
  | c :: rest =>
    rw [takeWs] at h
    split at h
    · cases h
      refine ⟨by simp [List.takeWhile_append_dropWhile], by simp, ?_⟩
      simp only [List.all_cons, Bool.and_eq_true]
      refine ⟨by assumption, ?_⟩
      simp only [List.all_eq_true]
      exact fun x hx => List.mem_takeWhile_imp hx
    · cases h

theorem takeLit_spec {lit s m r : List Char} (h : takeLit lit s = some (m, r)) :
    s = m ++ r ∧ m = lit := by
  rw [takeLit] at h
  split at h
  · cases h
    rename_i hpre
    rw [List.isPrefixOf_iff_prefix] at hpre
    obtain ⟨t, ht⟩ := hpre
    refine ⟨?_, rfl⟩
    rw [← ht, List.drop_left]
  · cases h

theorem tryAlts_spec {alts : List (List Char × List Char)} {s m r : List Char}
    (h : tryAlts alts s = some (m, r)) :
    s = m ++ r ∧ ∃ pr ∈ alts, m = pr.1 ∨ m = pr.2 := by
  induction alts with
  | nil => simp [tryAlts] at h
  | cons hd tl ih =>
    obtain ⟨full, ab⟩ := hd
    rw [tryAlts] at h
    cases h1 : takeLit full s with
    | some v =>
      rw [h1] at h
      cases h
      obtain ⟨hs, hm⟩ := takeLit_spec h1
      exact ⟨hs, ⟨full, ab⟩, List.mem_cons_self _ _, Or.inl hm⟩
    | none =>
      rw [h1] at h
      cases h2 : takeLit ab s with
      | some v =>
        rw [h2] at h
        cases h
        obtain ⟨hs, hm⟩ := takeLit_spec h2
        exact ⟨hs, ⟨full, ab⟩, List.mem_cons_self _ _, Or.inr hm⟩
      | none =>
        rw [h2] at h
        obtain ⟨hs, pr, hpr, hm⟩ := ih h
        exact ⟨hs, pr, List.mem_cons_of_mem _ hpr, hm⟩

theorem takeMonth_spec {s m r : List Char} (h : takeMonth s = some (m, r)) :
    s = m ++ r ∧ m ∈ monthLits := by
  obtain ⟨hs, pr, hpr, hm⟩ := tryAlts_spec h
  refine ⟨hs, ?_⟩
  rw [monthLits, List.mem_append]
  rcases hm with hm | hm
  · exact Or.inl (List.mem_map.mpr ⟨pr, hpr, hm.symm⟩)
  · exact Or.inr (List.mem_map.mpr ⟨pr, hpr, hm.symm⟩)

theorem monthLits_facts :
    ∀ m ∈ monthLits, m ≠ [] ∧ m.all isAlpha = true := by decide

/-! ## List edge helpers -/

theorem head?_append_left {x y : List Char} (hx : x ≠ []) :
    (x ++ y).head? = x.head? := by
  cases x with
  | nil => exact absurd rfl hx
  | cons c t => rfl

theorem getLast?_append_right {x y : List Char} (hy : y ≠ []) :
    (x ++ y).getLast? = y.getLast? := by
  rw [List.getLast?_append]
  cases hl : y.getLast? with
  | none =>
    exfalso
    apply hy
    cases y with
    | nil => rfl
    | cons c t => simpa using congrArg Option.isSome hl
  | some c => rfl

theorem mem_of_head? {l : List Char} {c : Char} (hc : l.head? = some c) : c ∈ l := by
  cases l with
  | nil => cases hc
  | cons d t =>
    injection hc with h
    exact h ▸ List.mem_cons_self d t

theorem ne_nil_of_length12 {l : List Char} (h : l.length = 1 ∨ l.length = 2) :
    l ≠ [] := by
  intro hnil
  subst hnil
  simp at h

/-! ## Pattern-matcher soundness -/

theorem matchAtP1_sound : MatcherSound matchAtP1 := by
  intro prev s m r h
  rw [matchAtP1] at h
  split at h
  case isFalse => cases h
  case isTrue hb =>
  simp only [Option.pure_def, Option.bind_eq_bind, Option.bind_eq_some] at h
  obtain ⟨⟨a, s1⟩, h1, ⟨p, s2⟩, h2, ⟨b, s3⟩, h3, ⟨q, s4⟩, h4, ⟨c, s5⟩, h5, hfin⟩ := h
  dsimp only at h2 h3 h4 h5 hfin
  split at hfin
  case isFalse => cases hfin
  case isTrue htail =>
  injection hfin with hfin'
  injection hfin' with hm hr
  subst hr
  obtain ⟨e1, hd1, hlen1⟩ := takeDigits1or2_spec h1
  obtain ⟨e2, p0, hp0, hsep1⟩ := takeSep_spec h2
  obtain ⟨e3, hd3, hlen3⟩ := takeDigits1or2_spec h3
  obtain ⟨e4, q0, hq0, hsep2⟩ := takeSep_spec h4
  obtain ⟨e5, hd5, hlen5⟩ := takeDigits4_spec h5
  have hane : a ≠ [] := ne_nil_of_length12 hlen1
  have hcne : c ≠ [] := by intro hnil; rw [hnil] at hlen5; simp at hlen5
  refine ⟨?_, ?_, ?_, ?_⟩
  · rw [e1, e2, e3, e4, e5, ← hm]
    simp [List.append_assoc]
  · rw [← hm]
    cases a with
    | nil => exact absurd rfl hane
    | cons d t => simp
  · intro ch hch
    rw [← hm, head?_append_left hane] at hch
    exact not_space_of_digit (List.all_eq_true.mp hd1 ch (mem_of_head? hch))
  · intro ch hch
    have hm' : m = (a ++ (p ++ (b ++ q))) ++ c := by rw [← hm]; simp [List.append_assoc]
    rw [hm', getLast?_append_right hcne] at hch
    exact not_space_of_digit
      (List.all_eq_true.mp hd5 ch (List.mem_of_getLast?_eq_some hch))

theorem matchAtP2_sound : MatcherSound matchAtP2 := by
  intro prev s m r h
  rw [matchAtP2] at h
  split at h
  case isFalse => cases h
  case isTrue hb =>
  simp only [Option.pure_def, Option.bind_eq_bind, Option.bind_eq_some] at h
  obtain ⟨⟨a, s1⟩, h1, ⟨p, s2⟩, h2, ⟨b, s3⟩, h3, ⟨q, s4⟩, h4, ⟨c, s5⟩, h5, hfin⟩ := h
  dsimp only at h2 h3 h4 h5 hfin
  split at hfin
  case isFalse => cases hfin
  case isTrue htail =>
  injection hfin with hfin'
  injection hfin' with hm hr
  subst hr
  obtain ⟨e1, hd1, hlen1⟩ := takeDigits4_spec h1
  obtain ⟨e2, p0, hp0, hsep1⟩ := takeSep_spec h2
  obtain ⟨e3, hd3, hlen3⟩ := takeDigits1or2_spec h3
  obtain ⟨e4, q0, hq0, hsep2⟩ := takeSep_spec h4
  obtain ⟨e5, hd5, hlen5⟩ := takeDigits1or2_spec h5
  have hane : a ≠ [] := by intro hnil; rw [hnil] at hlen1; simp at hlen1
  have hcne : c ≠ [] := ne_nil_of_length12 hlen5
  refine ⟨?_, ?_, ?_, ?_⟩
  · rw [e1, e2, e3, e4, e5, ← hm]
    simp [List.append_assoc]
  · rw [← hm]
    cases a with
    | nil => exact absurd rfl hane
    | cons d t => simp
  · intro ch hch
    rw [← hm, head?_append_left hane] at hch
    exact not_space_of_digit (List.all_eq_true.mp hd1 ch (mem_of_head? hch))
  · intro ch hch
    have hm' : m = (a ++ (p ++ (b ++ q))) ++ c := by rw [← hm]; simp [List.append_assoc]
    rw [hm', getLast?_append_right hcne] at hch
    exact not_space_of_digit
      (List.all_eq_true.mp hd5 ch (List.mem_of_getLast?_eq_some hch))

theorem matchAtP3_sound : MatcherSound matchAtP3 := by
  intro prev s m r h
  rw [matchAtP3] at h
  split at h
  case isFalse => cases h
  case isTrue hb =>
  simp only [Option.pure_def, Option.bind_eq_bind, Option.bind_eq_some] at h
  obtain ⟨⟨mo, s1⟩, h1, ⟨w1, s2⟩, h2, ⟨d, s3⟩, h3, ⟨k, s4⟩, h4, ⟨w2, s5⟩, h5,
    ⟨y, s6⟩, h6, hfin⟩ := h
  dsimp only at h2 h3 h4 h5 h6 hfin
  split at hfin
  case isFalse => cases hfin
  case isTrue htail =>
  injection hfin with hfin'
  injection hfin' with hm hr
  subst hr
  obtain ⟨e1, hmon⟩ := takeMonth_spec h1
  obtain ⟨e2, hw1ne, hw1⟩ := takeWs_spec h2
  obtain ⟨e3, hd3, hlen3⟩ := takeDigits1or2_spec h3
  obtain ⟨e4, hk⟩ := takeLit_spec h4
  obtain ⟨e5, hw2ne, hw2⟩ := takeWs_spec h5
  obtain ⟨e6, hd6, hlen6⟩ := takeDigits4_spec h6
  obtain ⟨hmone, hmoalpha⟩ := monthLits_facts mo hmon
  have hyne : y ≠ [] := by intro hnil; rw [hnil] at hlen6; simp at hlen6
  refine ⟨?_, ?_, ?_, ?_⟩
  · rw [e1, e2, e3, e4, e5, e6, ← hm]
    simp [List.append_assoc]
  · rw [← hm]
    cases mo with
    | nil => exact absurd rfl hmone
    | cons d' t => simp
  · intro ch hch
    rw [← hm, head?_append_left hmone] at hch
    exact not_space_of_alpha (List.all_eq_true.mp hmoalpha ch (mem_of_head? hch))
  · intro ch hch
    have hm' : m = (mo ++ (w1 ++ (d ++ (k ++ w2)))) ++ y := by
      rw [← hm]; simp [List.append_assoc]
    rw [hm', getLast?_append_right hyne] at hch
    exact not_space_of_digit
      (List.all_eq_true.mp hd6 ch (List.mem_of_getLast?_eq_some hch))

theorem matchAtP4_sound : MatcherSound matchAtP4 := by
  intro prev s m r h
  rw [matchAtP4] at h
  split at h
  case isFalse => cases h
  case isTrue hb =>
  simp only [Option.pure_def, Option.bind_eq_bind, Option.bind_eq_some] at h
  obtain ⟨⟨d, s1⟩, h1, ⟨w1, s2⟩, h2, ⟨mo, s3⟩, h3, ⟨w2, s4⟩, h4, ⟨y, s5⟩, h5, hfin⟩ := h
  dsimp only at h2 h3 h4 h5 hfin
  split at hfin
  case isFalse => cases hfin
  case isTrue htail =>
  injection hfin with hfin'
  injection hfin' with hm hr
  subst hr
  obtain ⟨e1, hd1, hlen1⟩ := takeDigits1or2_spec h1
  obtain ⟨e2, hw1ne, hw1⟩ := takeWs_spec h2
  obtain ⟨e3, hmon⟩ := takeMonth_spec h3
  obtain ⟨e4, hw2ne, hw2⟩ := takeWs_spec h4
  obtain ⟨e5, hd5, hlen5⟩ := takeDigits4_spec h5
  have hdne : d ≠ [] := ne_nil_of_length12 hlen1
  have hyne : y ≠ [] := by intro hnil; rw [hnil] at hlen5; simp at hlen5
  refine ⟨?_, ?_, ?_, ?_⟩
  · rw [e1, e2, e3, e4, e5, ← hm]
    simp [List.append_assoc]
  · rw [← hm]
    cases d with
    | nil => exact absurd rfl hdne
    | cons d' t => simp
  · intro ch hch
    rw [← hm, head?_append_left hdne] at hch
    exact not_space_of_digit (List.all_eq_true.mp hd1 ch (mem_of_head? hch))
  · intro ch hch
    have hm' : m = (d ++ (w1 ++ (mo ++ w2))) ++ y := by
      rw [← hm]; simp [List.append_assoc]
    rw [hm', getLast?_append_right hyne] at hch
    exact not_space_of_digit
      (List.all_eq_true.mp hd5 ch (List.mem_of_getLast?_eq_some hch))

theorem matchAtP5_sound : MatcherSound matchAtP5 := by
  intro prev s m r h
  rw [matchAtP5] at h
  split at h
  case isFalse => cases h
  case isTrue hb =>
  simp only [Option.pure_def, Option.bind_eq_bind, Option.bind_eq_some] at h
  obtain ⟨⟨mo, s1⟩, h1, ⟨w, s2⟩, h2, ⟨y, s3⟩, h3, hfin⟩ := h
  dsimp only at h2 h3 hfin
  split at hfin
  case isFalse => cases hfin
  case isTrue htail =>
  injection hfin with hfin'
  injection hfin' with hm hr
  subst hr
  obtain ⟨e1, hmon⟩ := takeMonth_spec h1
  obtain ⟨e2, hwne, hw⟩ := takeWs_spec h2
  obtain ⟨e3, hd3, hlen3⟩ := takeDigits4_spec h3
  obtain ⟨hmone, hmoalpha⟩ := monthLits_facts mo hmon
  have hyne : y ≠ [] := by intro hnil; rw [hnil] at hlen3; simp at hlen3
  refine ⟨?_, ?_, ?_, ?_⟩
  · rw [e1, e2, e3, ← hm]
    simp [List.append_assoc]
  · rw [← hm]
    cases mo with
    | nil => exact absurd rfl hmone
    | cons d' t => simp
  · intro ch hch
    rw [← hm, head?_append_left hmone] at hch
    exact not_space_of_alpha (List.all_eq_true.mp hmoalpha ch (mem_of_head? hch))
  · intro ch hch
    have hm' : m = (mo ++ w) ++ y := by rw [← hm]; simp [List.append_assoc]
    rw [hm', getLast?_append_right hyne] at hch
    exact not_space_of_digit
      (List.all_eq_true.mp hd3 ch (List.mem_of_getLast?_eq_some hch))

/-- Every pattern in `date_patterns` is a sound matcher. -/
theorem date_patterns_sound :
    ∀ pat ∈ date_patterns, MatcherSound pat := by
  intro pat hpat
  simp only [date_patterns, List.mem_cons, List.not_mem_nil, or_false] at hpat
  rcases hpat with rfl | rfl | rfl | rfl | rfl
  · exact matchAtP1_sound
  · exact matchAtP2_sound
  · exact matchAtP3_sound
  · exact matchAtP4_sound
  · exact matchAtP5_sound

/-- Every match reported by the scanning loop of a sound matcher is a
non-empty infix of the scanned text with non-whitespace edges. -/
theorem findAllFuel_sound {mA : Option Char → List Char → Option (List Char × List Char)}
    (H : MatcherSound mA) :
    ∀ (fuel : Nat) (prev : Option Char) (s m : List Char),
      m ∈ findAllFuel mA fuel prev s →
      m <:+: s ∧ m ≠ [] ∧
      (∀ c, m.head? = some c → isSpace c = false) ∧
      (∀ c, m.getLast? = some c → isSpace c = false) := by
  intro fuel
  induction fuel with
  | zero => intro prev s m h; simp [findAllFuel] at h
  | succ n ih =>
    intro prev s m h
    cases s with
    | nil => simp [findAllFuel] at h
    | cons c rest =>
      rw [findAllFuel] at h
      cases hma : mA prev (c :: rest) with
      | none =>
        rw [hma] at h
        obtain ⟨hinf, hrest⟩ := ih (some c) rest m h
        exact ⟨hinf.trans (List.suffix_cons c rest).isInfix, hrest⟩
      | some v =>
        obtain ⟨m0, r⟩ := v
        rw [hma] at h
        obtain ⟨hs, hm0ne, hh, hl⟩ := H prev (c :: rest) m0 r hma
        rcases List.mem_cons.mp h with rfl | h
        · exact ⟨⟨[], r, by rw [hs]; rfl⟩, hm0ne, hh, hl⟩
        · obtain ⟨hinf, hrest⟩ := ih m0.getLast? r m h
          refine ⟨hinf.trans ?_, hrest⟩
          have : r <:+ c :: rest := hs ▸ List.suffix_append m0 r
          exact this.isInfix

theorem findAll_sound {mA : Option Char → List Char → Option (List Char × List Char)}
    (H : MatcherSound mA) {s m : List Char} (h : m ∈ findAll mA s) :
    m <:+: s ∧ m ≠ [] ∧
    (∀ c, m.head? = some c → isSpace c = false) ∧
    (∀ c, m.getLast? = some c → isSpace c = false) :=
  findAllFuel_sound H s.length none s m h

/-! ## Strip lemmas -/

theorem dropWhile_eq_self_of_head {p : Char → Bool} {l : List Char}
    (h : ∀ c, l.head? = some c → p c = false) : l.dropWhile p = l := by
  cases l with
  | nil => rfl
  | cons c t =>
    apply List.dropWhile_cons_of_neg
    simp [h c rfl]

theorem strip_eq_self {m : List Char}
    (h1 : ∀ c, m.head? = some c → isSpace c = false)
    (h2 : ∀ c, m.getLast? = some c → isSpace c = false) : strip m = m := by
  rw [strip, dropWhile_eq_self_of_head h1, dropWhile_eq_self_of_head
    (by intro c hc; rw [List.head?_reverse] at hc; exact h2 c hc), List.reverse_reverse]

theorem infix_dropWhile_of_head {m s : List Char}
    (h1 : ∀ c, m.head? = some c → isSpace c = false)
    (hinf : m <:+: s) : m <:+: s.dropWhile isSpace := by
  obtain ⟨u, v, huv⟩ := hinf
  subst huv
  induction u with
  | nil =>
    rw [List.nil_append]
    cases m with
    | nil => exact List.nil_infix
    | cons c m' =>
      rw [List.cons_append, List.dropWhile_cons_of_neg (by simp [h1 c rfl])]
      exact ⟨[], v, rfl⟩
  | cons x u' ih =>
    rw [List.cons_append, List.cons_append]
    by_cases hx : isSpace x
    · rw [List.dropWhile_cons_of_pos hx]
      exact ih
    · rw [List.dropWhile_cons_of_neg hx]
      exact ⟨x :: u', v, rfl⟩

theorem infix_strip_of_edges {m s : List Char}
    (h1 : ∀ c, m.head? = some c → isSpace c = false)
    (h2 : ∀ c, m.getLast? = some c → isSpace c = false)
    (hinf : m <:+: s) : m <:+: strip s := by
  have step1 : m <:+: s.dropWhile isSpace := infix_dropWhile_of_head h1 hinf
  have step2 : m.reverse <:+: (s.dropWhile isSpace).reverse :=
    List.reverse_infix.mpr step1
  have h1' : ∀ c, m.reverse.head? = some c → isSpace c = false := by
    intro c hc
    rw [List.head?_reverse] at hc
    exact h2 c hc
  have step3 := infix_dropWhile_of_head h1' step2
  rw [strip]
  simpa using List.reverse_infix.mpr step3

/-- Every record of `extract` comes from some sentence, pattern and match. -/
theorem mem_extract {ps : List (List Char)} {r : ExtractionRecord}
    (h : r ∈ extract ps) :
    ∃ sentence pat m, pat ∈ date_patterns ∧ m ∈ findAll pat sentence ∧
      r = ExtractionRecord.mk (strip m) (strip sentence) := by
  rw [extract, List.mem_flatten] at h
  obtain ⟨l, hl, hr⟩ := h
  rw [List.mem_map] at hl
  obtain ⟨para, hpara, rfl⟩ := hl
  rw [processParagraph_eq, List.mem_flatten] at hr
  obtain ⟨l2, hl2, hr⟩ := hr
  rw [List.mem_map] at hl2
  obtain ⟨sentence, hsent, rfl⟩ := hl2
  rw [processSentence, List.mem_flatten] at hr
  obtain ⟨l3, hl3, hr⟩ := hr
  rw [List.mem_map] at hl3
  obtain ⟨pat, hpat, rfl⟩ := hl3
  rw [List.mem_map] at hr
  obtain ⟨m, hm, rfl⟩ := hr
  exact ⟨sentence, pat, m, hpat, hm, rfl⟩

/-! ## Pattern 1: exactness, shape, and scanning (for claim C8) -/

theorem takeDigits1or2_eval {a rest : List Char} {x : Char}
    (ha : a.all isDigit = true) (hlen : a.length = 1 ∨ a.length = 2)
    (hx : isDigit x = false) :
    takeDigits1or2 (a ++ x :: rest) = some (a, x :: rest) := by
  match a, hlen with
  | [d], _ =>
    simp only [List.all_cons, List.all_nil, Bool.and_true] at ha
    simp [takeDigits1or2, ha, hx]
  | [d1, d2], _ =>
    simp only [List.all_cons, List.all_nil, Bool.and_true, Bool.and_eq_true] at ha
    simp [takeDigits1or2, ha.1, ha.2]
  | [], hlen => simp at hlen
  | d1 :: d2 :: d3 :: t, hlen => simp [List.length_cons] at hlen

theorem takeDigits4_eval {c post : List Char}
    (hc : c.all isDigit = true) (hlen : c.length = 4) :
    takeDigits4 (c ++ post) = some (c, post) := by
  match c, hlen with
  | [e1, e2, e3, e4], _ =>
    simp only [List.all_cons, List.all_nil, Bool.and_true, Bool.and_eq_true] at hc
    simp [takeDigits4, hc.1, hc.2.1, hc.2.2.1, hc.2.2.2]

/-- Pattern 1 matches exactly the target at a word boundary. -/
theorem matchAtP1_exact {prev : Option Char} {a b c post : List Char} {p q : Char}
    (hb : boundaryOk prev = true) (htgt : P1Target a p b q c)
    (hpost : tailBoundaryOk post = true) :
    matchAtP1 prev (a ++ (p :: (b ++ (q :: (c ++ post))))) =
      some (a ++ (p :: (b ++ (q :: c))), post) := by
  obtain ⟨ha, hlen1, hp, hbd, hlen2, hq, hc, hlenc⟩ := htgt
  have hxp : isDigit p = false := not_digit_of_sep hp
  have hxq : isDigit q = false := not_digit_of_sep hq
  rw [matchAtP1, if_pos hb]
  have e1 : takeDigits1or2 (a ++ (p :: (b ++ (q :: (c ++ post))))) =
      some (a, p :: (b ++ (q :: (c ++ post)))) := takeDigits1or2_eval ha hlen1 hxp
  have e3 : takeDigits1or2 (b ++ (q :: (c ++ post))) = some (b, q :: (c ++ post)) :=
    takeDigits1or2_eval hbd hlen2 hxq
  have e5 : takeDigits4 (c ++ post) = some (c, post) := takeDigits4_eval hc hlenc
  simp [e1, e3, e5, takeSep, hp, hq, hpost]

/-- Any pattern-1 match has the grammar of pattern 1's body. -/
theorem matchAtP1_shape {prev : Option Char} {s m r : List Char}
    (h : matchAtP1 prev s = some (m, r)) :
    ∃ a p b q c, m = a ++ (p :: (b ++ (q :: c))) ∧ P1Target a p b q c := by
  rw [matchAtP1] at h
  split at h
  case isFalse => cases h
  case isTrue hb =>
  simp only [Option.pure_def, Option.bind_eq_bind, Option.bind_eq_some] at h
  obtain ⟨⟨a, s1⟩, h1, ⟨p', s2⟩, h2, ⟨b, s3⟩, h3, ⟨q', s4⟩, h4, ⟨c, s5⟩, h5, hfin⟩ := h
  dsimp only at h2 h3 h4 h5 hfin
  split at hfin
  case isFalse => cases hfin
  case isTrue htail =>
  injection hfin with hfin'
  injection hfin' with hm hr
  obtain ⟨e1, hd1, hlen1⟩ := takeDigits1or2_spec h1
  obtain ⟨e2, p0, hp0, hsep1⟩ := takeSep_spec h2
  obtain ⟨e3, hd3, hlen3⟩ := takeDigits1or2_spec h3
  obtain ⟨e4, q0, hq0, hsep2⟩ := takeSep_spec h4
  obtain ⟨e5, hd5, hlen5⟩ := takeDigits4_spec h5
  subst hp0
  subst hq0
  refine ⟨a, p0, b, q0, c, ?_, hd1, hlen1, hsep1, hd3, hlen3, hsep2, hd5, hlen5⟩
  rw [← hm]
  simp

/-- A digit run terminated by a non-digit cannot be covered by a strictly
longer digit run starting at the same position. -/
theorem digit_run_absorb {x : List Char} {y : Char} {z w r : List Char}
    (h : x ++ y :: z = w ++ r) (hx : x.all isDigit = true)
    (hy : isDigit y = false) (hw : w.all isDigit = true)
    (hlen : x.length < w.length) : False := by
  induction w generalizing x with
  | nil => simp at hlen
  | cons d w' ih =>
    rw [List.all_cons, Bool.and_eq_true] at hw
    cases x with
    | nil =>
      rw [List.nil_append, List.cons_append] at h
      injection h with h1 h2
      rw [← h1] at hw
      rw [hw.1] at hy
      cases hy
    | cons e x' =>
      rw [List.all_cons, Bool.and_eq_true] at hx
      rw [List.cons_append, List.cons_append] at h
      injection h with h1 h2
      exact ih h2 hx.2 hw.2 (by simpa using Nat.lt_of_succ_lt_succ (by simpa using hlen))

theorem getLast?_all {p : Char → Bool} {l : List Char} (hl : l ≠ [])
    (hall : l.all p = true) : ∃ c, l.getLast? = some c ∧ p c = true := by
  cases hlast : l.getLast? with
  | none => exact absurd (List.getLast?_eq_none_iff.mp hlast) hl
  | some c =>
    exact ⟨c, rfl, List.all_eq_true.mp hall c (List.mem_of_getLast?_eq_some hlast)⟩

theorem prefix_append_split {u x y : List Char} (h : u <+: x ++ y) :
    u <+: x ∨ ∃ t, u = x ++ t ∧ t <+: y := by
  induction x generalizing u with
  | nil => exact Or.inr ⟨u, rfl, by simpa using h⟩
  | cons d xs ih =>
    cases u with
    | nil => exact Or.inl List.nil_prefix
    | cons e us =>
      rw [List.cons_append, List.cons_prefix_cons] at h
      obtain ⟨rfl, h'⟩ := h
      rcases ih h' with h1 | ⟨t, rfl, ht⟩
      · exact Or.inl (List.cons_prefix_cons.mpr ⟨rfl, h1⟩)
      · exact Or.inr ⟨t, rfl, ht⟩

/-- Two decompositions digit-run + non-digit of the same list agree. -/
theorem digit_run_eq {x : List Char} {y : Char} {z : List Char}
    {x' : List Char} {y' : Char} {z' : List Char}
    (h : x ++ y :: z = x' ++ y' :: z')
    (hx : x.all isDigit = true) (hx' : x'.all isDigit = true)
    (hy : isDigit y = false) (hy' : isDigit y' = false) :
    x = x' ∧ y = y' ∧ z = z' := by
  induction x generalizing x' with
  | nil =>
    cases x' with
    | nil =>
      rw [List.nil_append, List.nil_append] at h
      injection h with h1 h2
      exact ⟨rfl, h1, h2⟩
    | cons d t =>
      rw [List.nil_append, List.cons_append] at h
      injection h with h1 h2
      rw [List.all_cons, Bool.and_eq_true] at hx'
      rw [← h1] at hx'
      rw [hx'.1] at hy
      cases hy
  | cons e x0 ih =>
    cases x' with
    | nil =>
      rw [List.nil_append, List.cons_append] at h
      injection h with h1 h2
      rw [List.all_cons, Bool.and_eq_true] at hx
      rw [h1] at hx
      rw [hx.1] at hy'
      cases hy'
    | cons d t =>
      rw [List.cons_append, List.cons_append] at h
      injection h with h1 h2
      rw [List.all_cons, Bool.and_eq_true] at hx hx'
      obtain ⟨rfl, h3, h4⟩ := ih h2 hx.2 hx'.2
      exact ⟨by rw [h1], h3, h4⟩

/-- A pattern-1 match attempted strictly before a word-boundary-delimited
pattern-1 target never reaches into the target: it ends before the
target's preceding (non-word) character. -/
theorem matchAtP1_not_into_target {prev : Option Char} {pre post m r : List Char}
    {a b c : List Char} {p q : Char}
    (htgt : P1Target a p b q c)
    (hpre : pre ≠ [])
    (hlast : ∀ x, pre.getLast? = some x → isWordChar x = false)
    (h : matchAtP1 prev (pre ++ (a ++ (p :: (b ++ (q :: (c ++ post)))))) =
      some (m, r)) :
    ∃ pre', pre = m ++ pre' ∧ pre' ≠ [] := by
  obtain ⟨ha, hlen1, hp, hbd, hlen2, hq, hc, hlenc⟩ := htgt
  obtain ⟨hs, hmne, _, _⟩ := matchAtP1_sound prev _ m r h
  obtain ⟨a', p', b', q', c', hm, ha', hlen1', hp', hbd', hlen2', hq', hc', hlenc'⟩ :=
    matchAtP1_shape h
  have hc'ne : c' ≠ [] := by intro hnil; rw [hnil] at hlenc'; simp at hlenc'
  have ha'ne : a' ≠ [] := ne_nil_of_length12 hlen1'
  have hb'ne : b' ≠ [] := ne_nil_of_length12 hlen2'
  obtain ⟨chL, hchL⟩ : ∃ x, pre.getLast? = some x := by
    cases hl : pre.getLast? with
    | none => exact absurd (List.getLast?_eq_none_iff.mp hl) hpre
    | some x => exact ⟨x, rfl⟩
  have hchLw : isWordChar chL = false := hlast chL hchL
  -- `hs` : pre ++ tgtfull = m ++ r; compare the two decompositions.
  rcases List.append_eq_append_iff.mp (show m ++ r =
      pre ++ (a ++ (p :: (b ++ (q :: (c ++ post))))) from hs.symm) with
    ⟨w, hw1, hw2⟩ | ⟨w, hw1, hw2⟩
  · -- pre = m ++ w: the good case, provided w ≠ [].
    refine ⟨w, hw1, ?_⟩
    intro hnil
    rw [hnil, List.append_nil] at hw1
    -- otherwise the last character of pre is the final digit of the match
    have hml : m.getLast? = c'.getLast? := by
      rw [hm, show a' ++ (p' :: (b' ++ (q' :: c'))) =
        (a' ++ (p' :: (b' ++ [q']))) ++ c' by simp,
        getLast?_append_right hc'ne]
    obtain ⟨ch, hch, hchd⟩ := getLast?_all hc'ne hc'
    have he : chL = ch := by
      have := hchL
      rw [hw1, hml, hch] at this
      injection this with he'
      exact he'.symm
    rw [he, word_of_digit hchd] at hchLw
    cases hchLw
  · -- m = pre ++ w: the match would swallow the non-word character before
    -- the target; every placement of that character inside the match's
    -- grammar is refuted.
    exfalso
    have hprem : pre <+: m := ⟨w, hw1.symm⟩
    rw [hm] at hprem
    -- tgtfull = w ++ r, with m = pre ++ w
    have hw2' : a ++ (p :: (b ++ (q :: (c ++ post)))) = w ++ r := hw2
    rcases prefix_append_split hprem with h1 | ⟨t, ht0, ht⟩
    · -- pre inside the leading digits a' of the match
      obtain ⟨ch, hch, hchd⟩ := getLast?_all hpre
        (List.all_eq_true.mpr fun x hx =>
          List.all_eq_true.mp ha' x (h1.sublist.subset hx))
      rw [hch] at hchL
      injection hchL with he
      rw [← he, word_of_digit hchd] at hchLw
      cases hchLw
    · cases t with
      | nil =>
        -- pre = a' exactly: its last character is a digit
        rw [List.append_nil] at ht0
        subst ht0
        obtain ⟨ch, hch, hchd⟩ := getLast?_all hpre ha'
        rw [hch] at hchL
        injection hchL with he
        rw [← he, word_of_digit hchd] at hchLw
        cases hchLw
      | cons tc t' =>
        rw [List.cons_prefix_cons] at ht
        obtain ⟨rfl, ht'⟩ := ht
        rcases prefix_append_split ht' with h2 | ⟨t2, ht20, ht2⟩
        · -- t' a prefix of b'
          cases t' with
          | nil =>
            -- pre = a' ++ [p']; then w = b' ++ (q' :: c') and the 4-digit
            -- run of the match collides with the target's first digit run
            have hww : w = b' ++ (q' :: c') := by
              apply @List.append_cancel_left Char (a' ++ [tc]) _ _
              rw [show (a' ++ [tc]) ++ (b' ++ (q' :: c')) =
                a' ++ (tc :: (b' ++ (q' :: c'))) by simp]
              rw [← hm, hw1, ht0]
            rw [hww] at hw2'
            have hcmp : b' ++ (q' :: (c' ++ r)) =
                a ++ (p :: (b ++ (q :: (c ++ post)))) := by
              rw [hw2']
              simp
            obtain ⟨hba, hqp, hz⟩ := digit_run_eq hcmp hbd' ha
              (not_digit_of_sep hq') (not_digit_of_sep hp)
            exact digit_run_absorb hz.symm hbd (not_digit_of_sep hq) hc'
              (by rcases hlen2 with hh | hh <;> rw [hh, hlenc'] <;> omega)
          | cons e t'' =>
            -- pre ends inside b' (digits)
            have hpre2 : pre = (a' ++ [tc]) ++ (e :: t'') := by
              rw [ht0]
              simp
            obtain ⟨ch, hch, hchd⟩ := getLast?_all (show (e :: t'') ≠ [] by simp)
              (List.all_eq_true.mpr fun x hx =>
                List.all_eq_true.mp hbd' x (h2.sublist.subset hx))
            have : pre.getLast? = some ch := by
              rw [hpre2, getLast?_append_right (by simp), hch]
            rw [this] at hchL
            injection hchL with he
            rw [← he, word_of_digit hchd] at hchLw
            cases hchLw
        · -- t' = b' ++ t2 with t2 a prefix of q' :: c'
          cases t2 with
          | nil =>
            -- pre = a' ++ p' :: b': its last character is a digit of b'
            rw [List.append_nil] at ht20
            have hpre2 : pre = (a' ++ [tc]) ++ b' := by
              rw [ht0, ht20]
              simp
            obtain ⟨ch, hch, hchd⟩ := getLast?_all hb'ne hbd'
            have : pre.getLast? = some ch := by
              rw [hpre2, getLast?_append_right hb'ne, hch]
            rw [this] at hchL
            injection hchL with he
            rw [← he, word_of_digit hchd] at hchLw
            cases hchLw
          | cons e2 t3 =>
            rw [List.cons_prefix_cons] at ht2
            obtain ⟨rfl, ht3⟩ := ht2
            cases t3 with
            | nil =>
              -- pre = a' ++ p' :: b' ++ [q']; then w = c' and the target's
              -- first digit run collides with the 4-digit run c'
              have hww : w = c' := by
                apply @List.append_cancel_left Char pre _ _
                rw [hw1.symm, hm, ht0, ht20]
                simp
              rw [hww] at hw2'
              exact digit_run_absorb hw2' ha (not_digit_of_sep hp) hc'
                (by rcases hlen1 with hh | hh <;> rw [hh, hlenc'] <;> omega)
            | cons e3 t4 =>
              -- pre ends inside c' (digits)
              have hpre2 : pre = (a' ++ (tc :: (b' ++ [e2]))) ++ (e3 :: t4) := by
                rw [ht0, ht20]
                simp
              obtain ⟨ch, hch, hchd⟩ := getLast?_all (show (e3 :: t4) ≠ [] by simp)
                (List.all_eq_true.mpr fun x hx =>
                  List.all_eq_true.mp hc' x (ht3.sublist.subset hx))
              have : pre.getLast? = some ch := by
                rw [hpre2, getLast?_append_right (by simp), hch]
              rw [this] at hchL
              injection hchL with he
              rw [← he, word_of_digit hchd] at hchLw
              cases hchLw

theorem tailBoundaryOk_of_head {post : List Char}
    (h : ∀ x, post.head? = some x → isWordChar x = false) :
    tailBoundaryOk post = true := by
  cases post with
  | nil => rfl
  | cons x t => simp [tailBoundaryOk, h x rfl]

/-- The scanning loop of pattern 1 reports a word-boundary-delimited
pattern-1 target occurring anywhere in the text. -/
theorem findAllFuel_target_mem {a b c : List Char} {p q : Char} {post : List Char}
    (htgt : P1Target a p b q c) (hpost : tailBoundaryOk post = true) :
    ∀ (fuel : Nat) (prev : Option Char) (pre : List Char),
      (pre ++ (a ++ (p :: (b ++ (q :: (c ++ post)))))).length ≤ fuel →
      (pre = [] → boundaryOk prev = true) →
      (∀ x, pre.getLast? = some x → isWordChar x = false) →
      (a ++ (p :: (b ++ (q :: c)))) ∈
        findAllFuel matchAtP1 fuel prev
          (pre ++ (a ++ (p :: (b ++ (q :: (c ++ post)))))) := by
  intro fuel
  induction fuel with
  | zero =>
    intro prev pre hlen _ _
    exfalso
    simp [List.length_append] at hlen
  | succ n ih =>
    intro prev pre hlen hbpre hlast
    cases pre with
    | nil =>
      rw [List.nil_append] at hlen ⊢
      have hex := matchAtP1_exact (hbpre rfl) htgt hpost
      obtain ⟨d, a0, rfl⟩ : ∃ d a0, a = d :: a0 := by
        cases a with
        | nil => exact absurd rfl (ne_nil_of_length12 htgt.2.1)
        | cons d a0 => exact ⟨d, a0, rfl⟩
      rw [List.cons_append, findAllFuel, ← List.cons_append, hex]
      exact List.mem_cons_self _ _
    | cons x pre' =>
      have hsplit : (x :: pre') ++ (a ++ (p :: (b ++ (q :: (c ++ post))))) =
          x :: (pre' ++ (a ++ (p :: (b ++ (q :: (c ++ post)))))) := rfl
      cases hma : matchAtP1 prev
          ((x :: pre') ++ (a ++ (p :: (b ++ (q :: (c ++ post)))))) with
      | none =>
        have hstep : findAllFuel matchAtP1 (n + 1) prev
            ((x :: pre') ++ (a ++ (p :: (b ++ (q :: (c ++ post)))))) =
            findAllFuel matchAtP1 n (some x)
              (pre' ++ (a ++ (p :: (b ++ (q :: (c ++ post)))))) := by
          rw [hsplit, findAllFuel, ← hsplit, hma]
        rw [hstep]
        apply ih (some x) pre'
        · rw [hsplit] at hlen
          simpa [Nat.succ_le_succ_iff] using hlen
        · intro hnil
          subst hnil
          have := hlast x rfl
          simp [boundaryOk, this]
        · intro y hy
          apply hlast
          cases pre' with
          | nil => cases hy
          | cons z pre'' => rw [List.getLast?_cons_cons, hy]
      | some v =>
        obtain ⟨m0, r⟩ := v
        obtain ⟨hs, hm0ne, _, _⟩ := matchAtP1_sound prev _ m0 r hma
        obtain ⟨pre'', hpre1, hpre2⟩ := matchAtP1_not_into_target htgt
          (by simp) hlast hma
        have hr : r = pre'' ++ (a ++ (p :: (b ++ (q :: (c ++ post))))) := by
          apply @List.append_cancel_left Char m0 _ _
          rw [← hs, hpre1]
          simp
        have hstep : findAllFuel matchAtP1 (n + 1) prev
            ((x :: pre') ++ (a ++ (p :: (b ++ (q :: (c ++ post)))))) =
            m0 :: findAllFuel matchAtP1 n m0.getLast? r := by
          rw [hsplit, findAllFuel, ← hsplit, hma]
        rw [hstep, hr]
        apply List.mem_cons_of_mem
        apply ih m0.getLast? pre''
        · have h1 : ((x :: pre') ++
              (a ++ (p :: (b ++ (q :: (c ++ post)))))).length ≤ n + 1 := hlen
          rw [hs] at h1
          rw [List.length_append] at h1
          have h2 : 1 ≤ m0.length := List.length_pos.mpr hm0ne
          rw [hr] at h1
          omega
        · intro hnil
          exact absurd hnil hpre2
        · intro y hy
          apply hlast
          rw [hpre1, getLast?_append_right hpre2, hy]


/-! ## Lemmas about the sentence splitter -/

theorem splitGo_ne_nil (t : List Char) :
    ∀ (skip : Bool) (acc : List Char), splitGo skip t acc ≠ [] := by
  induction t with
  | nil => intro skip acc; simp [splitGo]
  | cons c rest ih =>
    intro skip acc
    by_cases h1 : skip && isSpace c
    · simpa [splitGo, h1] using ih true acc
    · by_cases h2 : isTerm c && headIsSpace rest <;> simp [splitGo, h1, h2]
      exact ih false (c :: acc)

theorem joinWithSpace_cons (x : List Char) (l : List (List Char)) (h : l ≠ []) :
    joinWithSpace (x :: l) = x ++ ' ' :: joinWithSpace l := by
  cases l with
  | nil => exact absurd rfl h
  | cons y r => rfl

theorem joinWithSpace_splitGo (t : List Char) :
    ∀ (skip : Bool) (acc : List Char),
      joinWithSpace (splitGo skip t acc) = acc.reverse ++ collapseGo skip t := by
  induction t with
  | nil => intro skip acc; simp [splitGo, collapseGo, joinWithSpace]
  | cons c rest ih =>
    intro skip acc
    by_cases h1 : skip && isSpace c
    · simp [splitGo, collapseGo, h1, ih]
    · by_cases h2 : isTerm c && headIsSpace rest
      · simp only [splitGo, collapseGo, h1, h2, if_true, if_false,
          Bool.false_eq_true, if_neg, ite_true, ite_false]
        rw [joinWithSpace_cons _ _ (splitGo_ne_nil rest true []), ih]
        simp
      · simp only [splitGo, collapseGo, h1, h2, Bool.false_eq_true, ite_false]
        rw [ih]
        simp

theorem splitGo_no_split (t : List Char) (h : hasSplitPoint t = false) :
    ∀ acc, splitGo false t acc = [acc.reverse ++ t] := by
  induction t with
  | nil => intro acc; simp [splitGo]
  | cons c rest ih =>
    intro acc
    rw [hasSplitPoint] at h
    simp only [Bool.or_eq_false_iff] at h
    simp only [splitGo, Bool.false_and, Bool.false_eq_true, ite_false, h.1]
    rw [ih h.2]
    simp

/-! ## Claims -/

/-- C1 (counterexample): the paragraph "The deadline is 1 February 2025."
does NOT yield exactly one record: pattern 4 matches "1 February 2025" and
pattern 5 additionally matches the trailing "February 2025", so `extract`
yields two records, not one. -/
theorem C1_deadline_two_records :
    extract [("The deadline is 1 February 2025.").data] =
      [ExtractionRecord.mk ("1 February 2025").data
         ("The deadline is 1 February 2025.").data,
       ExtractionRecord.mk ("February 2025").data
         ("The deadline is 1 February 2025.").data] ∧
    (extract [("The deadline is 1 February 2025.").data]).length ≠ 1 := by
  constructor
  · rfl
  · decide

/-- C2 (counterexample): month names are NOT matched case-insensitively:
the sentence "The meeting was held on january 15, 2024." (lowercase month)
produces no match at all, hence no record. -/
theorem C2_lowercase_month_no_record :
    extract [("The meeting was held on january 15, 2024.").data] = [] := by
  rfl

/-- C2 (amended): month names match case-sensitively in their capitalized
spelling only, both as the full name ("January") and as the three-letter
abbreviation ("Jan"); a lowercase month name yields no record. -/
theorem C2_title_case_months :
    extract [("The meeting was held on January 15, 2024.").data] =
      [ExtractionRecord.mk ("January 15, 2024").data
         ("The meeting was held on January 15, 2024.").data] ∧
    extract [("The meeting was held on Jan 15, 2024.").data] =
      [ExtractionRecord.mk ("Jan 15, 2024").data
         ("The meeting was held on Jan 15, 2024.").data] ∧
    extract [("The meeting was held on january 15, 2024.").data] = [] ∧
    extract [("THE MEETING WAS HELD ON JANUARY 15, 2024.").data] = [] := by
  refine ⟨rfl, rfl, rfl, rfl⟩

/-- C3: the ResultSet is the flattening of the nested traversal in the
fixed order paragraph → sentence → pattern → left-to-right match, so the
record order is exactly document paragraph order, then sentence order,
then pattern-priority order, then match order; and `extract` is a pure
function of its input, so two runs on the same paragraph sequence are
definitionally the same list. -/
theorem C3_order_nested_traversal (ps : List (List Char)) :
    extract ps =
      (ps.map (fun para =>
        ((splitSentences (strip para)).map (fun sentence =>
          (date_patterns.map (fun pat =>
            (findAll pat sentence).map (fun m =>
              ExtractionRecord.mk (strip m) (strip sentence)))).flatten)).flatten)).flatten := by
  unfold extract
  congr 1
  exact List.map_congr_left fun para _ => processParagraph_eq para

/-- C1 (amended): for a paragraph that is a single sentence on which the
five patterns produce exactly one match in total, `extract` yields exactly
one record, whose event description is the trimmed sentence and whose date
text is the trimmed match.  (The concrete paragraph named by the claim is
not such a sentence: patterns 4 and 5 both match, see the
counterexample.) -/
theorem C1_single_match_single_record (p s m : List Char)
    (h1 : splitSentences (strip p) = [s])
    (h2 : (date_patterns.map (fun pat => findAll pat s)).flatten = [m]) :
    extract [p] = [ExtractionRecord.mk (strip m) (strip s)] := by
  rw [extract_singleton, processParagraph_eq, h1]
  simp [processSentence_eq_map, h2]

/-- C1 witness: "Another important date is 2024-05-15." has exactly one
pattern match in total and yields exactly one record. -/
theorem C1_witness :
    extract [("Another important date is 2024-05-15.").data] =
      [ExtractionRecord.mk ("2024-05-15").data
        ("Another important date is 2024-05-15.").data] :=
  C1_single_match_single_record ("Another important date is 2024-05-15.").data
    ("Another important date is 2024-05-15.").data ("2024-05-15").data
    (by rfl) (by rfl)

/-- C4: for a paragraph that is a single sentence on which the five
patterns produce exactly two matches in total, `extract` yields exactly two
records, both with the trimmed sentence as event description. -/
theorem C4_two_matches_two_records (p s m₁ m₂ : List Char)
    (h1 : splitSentences (strip p) = [s])
    (h2 : (date_patterns.map (fun pat => findAll pat s)).flatten = [m₁, m₂]) :
    extract [p] = [ExtractionRecord.mk (strip m₁) (strip s),
                   ExtractionRecord.mk (strip m₂) (strip s)] ∧
    (extract [p]).length = 2 ∧
    ∀ r ∈ extract [p], r.eventDescription = strip s := by
  have hmain : extract [p] = [ExtractionRecord.mk (strip m₁) (strip s),
      ExtractionRecord.mk (strip m₂) (strip s)] := by
    rw [extract_singleton, processParagraph_eq, h1]
    simp [processSentence_eq_map, h2]
  refine ⟨hmain, by rw [hmain]; rfl, ?_⟩
  intro r hr
  rw [hmain] at hr
  simp only [List.mem_cons, List.not_mem_nil, or_false] at hr
  rcases hr with rfl | rfl <;> rfl

/-- C4 witness: the paragraph "Events occurred on 01/01/2023 and
02/02/2024." yields exactly two records sharing the full sentence as event
description. -/
theorem C4_witness :
    extract [("Events occurred on 01/01/2023 and 02/02/2024.").data] =
      [ExtractionRecord.mk ("01/01/2023").data
        ("Events occurred on 01/01/2023 and 02/02/2024.").data,
       ExtractionRecord.mk ("02/02/2024").data
        ("Events occurred on 01/01/2023 and 02/02/2024.").data] ∧
    (extract [("Events occurred on 01/01/2023 and 02/02/2024.").data]).length = 2 :=
  have h := C4_two_matches_two_records
    ("Events occurred on 01/01/2023 and 02/02/2024.").data
    ("Events occurred on 01/01/2023 and 02/02/2024.").data
    ("01/01/2023").data ("02/02/2024").data (by rfl) (by rfl)
  ⟨h.1, h.2.1⟩

/-- C8: pattern 1 does not require its two separators to agree: every
word-boundary-delimited occurrence of (1-2 digits, `-` or `/`, 1-2 digits,
`-` or `/`, 4 digits) — the separators chosen independently, so mixed ones
like "1-2/2023" qualify — is matched by pattern 1 wherever it occurs in a
sentence, and yields a record with that occurrence as date text. -/
theorem C8_mixed_separators (pre post a b c : List Char) (p q : Char)
    (htgt : P1Target a p b q c)
    (hlast : ∀ x, pre.getLast? = some x → isWordChar x = false)
    (hpost : ∀ x, post.head? = some x → isWordChar x = false) :
    (a ++ (p :: (b ++ (q :: c)))) ∈
      findAll matchAtP1 (pre ++ (a ++ (p :: (b ++ (q :: (c ++ post)))))) ∧
    ExtractionRecord.mk (a ++ (p :: (b ++ (q :: c))))
        (strip (pre ++ (a ++ (p :: (b ++ (q :: (c ++ post))))))) ∈
      processSentence (pre ++ (a ++ (p :: (b ++ (q :: (c ++ post)))))) := by
  have hpost' := tailBoundaryOk_of_head hpost
  have hmem : (a ++ (p :: (b ++ (q :: c)))) ∈
      findAll matchAtP1 (pre ++ (a ++ (p :: (b ++ (q :: (c ++ post)))))) :=
    findAllFuel_target_mem htgt hpost' _ none pre (Nat.le_refl _)
      (fun _ => rfl) hlast
  refine ⟨hmem, ?_⟩
  obtain ⟨hinf, hne, hh, hl⟩ := findAll_sound matchAtP1_sound hmem
  have hstrip : strip (a ++ (p :: (b ++ (q :: c)))) =
      a ++ (p :: (b ++ (q :: c))) := strip_eq_self hh hl
  rw [processSentence, List.mem_flatten]
  refine ⟨_, List.mem_map.mpr ⟨matchAtP1, by simp [date_patterns], rfl⟩,
    List.mem_map.mpr ⟨_, hmem, by rw [hstrip]⟩⟩

/-- C8 witness: "1-2/2023" (mixed separators) inside a sentence is matched
by pattern 1 and yields a record. -/
theorem C8_witness :
    ("1-2/2023").data ∈ findAll matchAtP1 ("Mixed 1-2/2023 separators.").data ∧
    ExtractionRecord.mk ("1-2/2023").data ("Mixed 1-2/2023 separators.").data ∈
      processSentence ("Mixed 1-2/2023 separators.").data :=
  C8_mixed_separators ("Mixed ").data (" separators.").data
    ("1").data ("2").data ("2023").data '-' '/'
    (by unfold P1Target; decide) (by decide) (by decide)

/-- C10: every emitted record's date text is a non-empty contiguous
substring (infix) of its event description: a match is a non-empty infix
of the sentence with non-whitespace edge characters, so trimming the match
is a no-op and the match stays inside the trimmed sentence. -/
theorem C10_date_text_inside_description (ps : List (List Char))
    (r : ExtractionRecord) (h : r ∈ extract ps) :
    r.dateFound ≠ [] ∧ r.dateFound <:+: r.eventDescription := by
  obtain ⟨sentence, pat, m, hpat, hm, rfl⟩ := mem_extract h
  obtain ⟨hinf, hne, hh, hl⟩ := findAll_sound (date_patterns_sound pat hpat) hm
  have hstrip : strip m = m := strip_eq_self hh hl
  constructor
  · show strip m ≠ []
    rw [hstrip]
    exact hne
  · show strip m <:+: strip sentence
    rw [hstrip]
    exact infix_strip_of_edges hh hl hinf

/-- C10 witness: the first record of the deadline paragraph. -/
theorem C10_witness :
    ("1 February 2025").data ≠ [] ∧
    ("1 February 2025").data <:+: ("The deadline is 1 February 2025.").data :=
  C10_date_text_inside_description [("The deadline is 1 February 2025.").data]
    (ExtractionRecord.mk ("1 February 2025").data
      ("The deadline is 1 February 2025.").data)
    (by decide)

/-- C7: a destination path recognized as neither CSV nor XLSX causes
`save_to_spreadsheet` to perform no write and surface no exception: the
outcome is only a logged report. -/
theorem C7_unsupported_extension_no_write (df : DataFrame) (path : List Char)
    (writeOk : Bool)
    (h1 : lowerEndsWith path (".csv".data) = false)
    (h2 : lowerEndsWith path (".xlsx".data) = false) :
    save_to_spreadsheet df path writeOk = SaveOutcome.unsupportedReported := by
  simp [save_to_spreadsheet, h1, h2]

/-- C5: sentence segmentation splits immediately after a `.`, `!` or `?`
followed by whitespace, keeping the terminator attached (this is the
definition of `splitGo`); a paragraph with no such terminator-whitespace
position is a single sentence; and joining the sentences with single
spaces reconstructs the paragraph up to whitespace normalization (each
whitespace run following a terminator collapsed to one space, everything
else verbatim). -/
theorem C5_segmentation_reconstruction (t : List Char) :
    joinWithSpace (splitSentences t) = collapseTermWs t ∧
    (hasSplitPoint t = false → splitSentences t = [t]) := by
  constructor
  · simpa using joinWithSpace_splitGo t false []
  · intro h
    simpa [splitSentences] using splitGo_no_split t h []

/-- C5 witness: a terminator-free paragraph is one sentence, and a
two-sentence paragraph with a double-space separator reconstructs to the
normalized paragraph. -/
theorem C5_witness :
    splitSentences ("no terminal punctuation here").data =
      [("no terminal punctuation here").data] ∧
    joinWithSpace (splitSentences ("One event. Another  follows!  End").data) =
      collapseTermWs ("One event. Another  follows!  End").data :=
  ⟨(C5_segmentation_reconstruction ("no terminal punctuation here").data).2
     (by rfl),
   (C5_segmentation_reconstruction ("One event. Another  follows!  End").data).1⟩

/-- C6: `extract_dates_from_docx` is a total function (the embedding
returns a `DataFrame` for every input, never an error value): a missing
path, a path whose lowercased form does not end in ".docx", a reader
exception, and a date-free document all yield the empty result with
exactly the two expected columns. -/
theorem C6_failures_yield_empty_frame (path : List Char) (env : DocxEnv)
    (h : env.pathExists = false ∨ lowerEndsWith path (".docx".data) = false ∨
         (∃ e, env.readResult = Except.error e) ∨
         (∃ paras, env.readResult = Except.ok paras ∧ extract paras = [])) :
    extract_dates_from_docx path env = ⟨expected_columns, []⟩ ∧
    (extract_dates_from_docx path env).columns =
      ["Date Found", "Event Description"] := by
  have hmain : extract_dates_from_docx path env = ⟨expected_columns, []⟩ := by
    unfold extract_dates_from_docx
    rcases h with h | h | ⟨e, h⟩ | ⟨paras, h, hex⟩
    · simp [h]
    · by_cases hp : env.pathExists <;> simp [h, hp]
    · by_cases hp : env.pathExists <;>
        by_cases hd : lowerEndsWith path (".docx".data) <;> simp [h, hp, hd]
    · by_cases hp : env.pathExists <;>
        by_cases hd : lowerEndsWith path (".docx".data) <;> simp [h, hp, hd, hex]
  exact ⟨hmain, by rw [hmain]; rfl⟩

/-- C6 witness: a missing path, a non-.docx path, a reader failure, and a
date-free document each give the empty two-column frame. -/
theorem C6_witness :
    extract_dates_from_docx ("missing.docx").data ⟨false, Except.ok []⟩ =
      ⟨expected_columns, []⟩ ∧
    extract_dates_from_docx ("notes.txt").data ⟨true, Except.ok []⟩ =
      ⟨expected_columns, []⟩ ∧
    extract_dates_from_docx ("broken.docx").data
      ⟨true, Except.error "Package not found"⟩ = ⟨expected_columns, []⟩ ∧
    extract_dates_from_docx ("plain.docx").data
      ⟨true, Except.ok [("This document contains no specific dates.").data]⟩ =
      ⟨expected_columns, []⟩ :=
  ⟨(C6_failures_yield_empty_frame _ _ (Or.inl rfl)).1,
   (C6_failures_yield_empty_frame _ _ (Or.inr (Or.inl (by decide)))).1,
   (C6_failures_yield_empty_frame _ _
     (Or.inr (Or.inr (Or.inl ⟨"Package not found", rfl⟩)))).1,
   (C6_failures_yield_empty_frame _ _
     (Or.inr (Or.inr (Or.inr ⟨_, rfl, by rfl⟩)))).1⟩

/-- C9: the extension checks lowercase the path before comparing, so any
letter-case variant of ".docx" passes the input check (and the document is
then processed), and any case variant of ".csv" / ".xlsx" selects the CSV
/ Excel export respectively. -/
theorem C9_extension_checks_case_insensitive (stem suf : List Char) :
    (suf.map lowerChar = (".docx").data →
      ∀ paras, extract_dates_from_docx (stem ++ suf) ⟨true, Except.ok paras⟩ =
        ⟨expected_columns, extract paras⟩) ∧
    (suf.map lowerChar = (".csv").data → ∀ df,
      save_to_spreadsheet df (stem ++ suf) true = SaveOutcome.wroteCsv df) ∧
    (suf.map lowerChar = (".xlsx").data → ∀ df,
      save_to_spreadsheet df (stem ++ suf) true = SaveOutcome.wroteXlsx df) := by
  have hsuffix : ∀ tgt : List Char, suf.map lowerChar = tgt →
      lowerEndsWith (stem ++ suf) tgt = true := by
    intro tgt htgt
    unfold lowerEndsWith
    rw [List.map_append, htgt, List.isSuffixOf_iff_suffix]
    exact List.suffix_append _ _
  refine ⟨?_, ?_, ?_⟩
  · intro hdocx paras
    unfold extract_dates_from_docx
    rw [hsuffix _ hdocx]
    by_cases hx : (extract paras).isEmpty
    · have : extract paras = [] := by simpa [List.isEmpty_iff] using hx
      simp [this]
    · simp [hx]
  · intro hcsv df
    unfold save_to_spreadsheet
    rw [hsuffix _ hcsv]
    simp
  · intro hxlsx df
    have hnotcsv : lowerEndsWith (stem ++ suf) (".csv".data) = false := by
      unfold lowerEndsWith
      rw [List.map_append, hxlsx]
      by_contra hcon
      rw [Bool.not_eq_false, List.isSuffixOf_iff_suffix] at hcon
      rcases List.suffix_or_suffix_of_suffix hcon
        (List.suffix_append (stem.map lowerChar) (".xlsx".data)) with h | h
      · exact absurd h (by decide)
      · exact absurd h (by decide)
    unfold save_to_spreadsheet
    rw [hnotcsv, hsuffix _ hxlsx]
    simp

/-- C9 witness: ".DOCX", ".CSV" and ".XLSX" (uppercase) are recognized like
their lowercase forms. -/
theorem C9_witness :
    extract_dates_from_docx ("report.DOCX").data ⟨true, Except.ok []⟩ =
      ⟨expected_columns, extract []⟩ ∧
    save_to_spreadsheet ⟨expected_columns, []⟩ ("out.CSV").data true =
      SaveOutcome.wroteCsv ⟨expected_columns, []⟩ ∧
    save_to_spreadsheet ⟨expected_columns, []⟩ ("out.XLSX").data true =
      SaveOutcome.wroteXlsx ⟨expected_columns, []⟩ :=
  ⟨(C9_extension_checks_case_insensitive ("report").data (".DOCX").data).1
      (by decide) [],
   (C9_extension_checks_case_insensitive ("out").data (".CSV").data).2.1
      (by decide) _,
   (C9_extension_checks_case_insensitive ("out").data (".XLSX").data).2.2
      (by decide) _⟩

/-- C7 witness: exporting to "output.txt" writes nothing. -/
theorem C7_witness :
    save_to_spreadsheet ⟨expected_columns, []⟩ ("output.txt").data true =
      SaveOutcome.unsupportedReported :=
  C7_unsupported_extension_no_write ⟨expected_columns, []⟩ ("output.txt").data true
    (by decide) (by decide)

end Chronox
